import Mathlib

/-!
# Temperature-to-Sound Converter: verification of the core signal chain

Shallow embedding of the core logic of the Temperature-to-Sound converter
firmware (files `main.ino` and `main.c`):

* the ADC-sample-to-frequency mapping (`map_frequency` in `main.ino`,
  `Temperature_To_Frequency` in `main.c`);
* the retune decision of the `main.ino` loop (change threshold OR elapsed
  interval);
* the phase-accumulator tone generator `generate_tone` of `main.ino`
  (C `double` arithmetic is modelled by real numbers; the `while`-loop phase
  wrap is modelled by its denotation `wrapPhase`, characterised below by the
  two loop equations);
* the `main.c` register-level main loop as a trace of the frequencies passed
  to `TIM2_Init`.

Machine integers are modelled as `ℕ` with explicit reductions modulo `2^16`
(a `uint16_t` parameter) and `2^32` (`uint32_t` arithmetic) where the source
performs them.
-/

namespace TempToSound

/-! ## Frequency mapping (`main.ino` lines 99-108, `main.c` lines 164-175) -/

/-- Constant `MIN_FREQ = 200` (`main.ino` line 24). -/
def MIN_FREQ : ℕ := 200

/-- Constant `MAX_FREQ = 2000` (`main.ino` line 25). -/
def MAX_FREQ : ℕ := 2000

/-- Function `map_frequency` from `main.ino`:
`frequency = MIN_FREQ + ((uint32_t)adc_value * (MAX_FREQ - MIN_FREQ)) / 4095`
followed by the two clamps.  The `uint16_t` parameter is modelled by an
initial reduction modulo `2^16`; the `uint32_t` arithmetic by reductions
modulo `2^32`. -/
def map_frequency (adc_value : ℕ) : ℕ :=
  let v := adc_value % 2 ^ 16
  let frequency := (MIN_FREQ + v * (MAX_FREQ - MIN_FREQ) % 2 ^ 32 / 4095) % 2 ^ 32
  let f1 := if frequency < MIN_FREQ then MIN_FREQ else frequency
  if f1 > MAX_FREQ then MAX_FREQ else f1

/-- Function `Temperature_To_Frequency` from `main.c`:
`frequency = 200 + ((uint32_t)adc_value * 1800) / 4095` followed by the two
clamps against 200 and 2000. -/
def Temperature_To_Frequency (adc_value : ℕ) : ℕ :=
  let v := adc_value % 2 ^ 16
  let frequency := (200 + v * 1800 % 2 ^ 32 / 4095) % 2 ^ 32
  let f1 := if frequency < 200 then 200 else frequency
  if f1 > 2000 then 2000 else f1

/-- The two firmware variants compute the same mapping. -/
lemma Temperature_To_Frequency_eq (v : ℕ) :
    Temperature_To_Frequency v = map_frequency v := rfl

/-- The `uint32_t` intermediate values never overflow for a `uint16_t`
input, so the modular reductions vanish and the mapping is the plain
linear formula plus clamps. -/
lemma map_frequency_eq_formula (adc_value : ℕ) :
    map_frequency adc_value =
      (if (200 + adc_value % 2 ^ 16 * 1800 / 4095) > 2000 then 2000
       else 200 + adc_value % 2 ^ 16 * 1800 / 4095) := by
  simp only [map_frequency, MIN_FREQ, MAX_FREQ, Nat.reduceSub]
  have hv : adc_value % 2 ^ 16 < 2 ^ 16 := Nat.mod_lt _ (by norm_num)
  have hmul : adc_value % 2 ^ 16 * 1800 < 2 ^ 32 := by
    calc adc_value % 2 ^ 16 * 1800 ≤ (2 ^ 16 - 1) * 1800 :=
          Nat.mul_le_mul_right _ (by omega)
      _ < 2 ^ 32 := by norm_num
  rw [Nat.mod_eq_of_lt hmul]
  have hdiv : adc_value % 2 ^ 16 * 1800 / 4095 ≤ 2 ^ 16 * 1800 / 4095 :=
    Nat.div_le_div_right (Nat.mul_le_mul_right _ hv.le)
  have hsum : 200 + adc_value % 2 ^ 16 * 1800 / 4095 < 2 ^ 32 := by
    have : (2 : ℕ) ^ 16 * 1800 / 4095 = 28807 := by norm_num
    omega
  rw [Nat.mod_eq_of_lt hsum]
  have : ¬ (200 + adc_value % 2 ^ 16 * 1800 / 4095 < 200) := by omega
  simp only [this, if_false]

/-- Range of the mapping, for every natural-number input. -/
lemma map_frequency_range (adc_value : ℕ) :
    200 ≤ map_frequency adc_value ∧ map_frequency adc_value ≤ 2000 := by
  rw [map_frequency_eq_formula]
  split_ifs with h <;> omega

/-- For inputs in the nominal 12-bit range the clamps are inactive and the
mapping is exactly the linear formula. -/
lemma map_frequency_nominal (adc_value : ℕ) (h : adc_value ≤ 4095) :
    map_frequency adc_value = 200 + adc_value * 1800 / 4095 := by
  rw [map_frequency_eq_formula]
  have hm : adc_value % 2 ^ 16 = adc_value := Nat.mod_eq_of_lt (by omega)
  rw [hm]
  have hdiv : adc_value * 1800 / 4095 ≤ 4095 * 1800 / 4095 :=
    Nat.div_le_div_right (Nat.mul_le_mul_right _ h)
  have h4095 : (4095 : ℕ) * 1800 / 4095 = 1800 := by norm_num
  split_ifs with hgt
  · omega
  · rfl

/-- C1: for every unsigned 16-bit input value `v` (including values above
4095), both frequency-mapping variants return a value `f` with
`200 ≤ f ≤ 2000`; out-of-range inputs are clamped into this range, never
rejected (the functions are total, with no error condition). -/
theorem map_frequency_always_in_range (v : ℕ) (_hv : v < 2 ^ 16) :
    200 ≤ map_frequency v ∧ map_frequency v ≤ 2000 ∧
    200 ≤ Temperature_To_Frequency v ∧ Temperature_To_Frequency v ≤ 2000 := by
  rw [Temperature_To_Frequency_eq]
  exact ⟨(map_frequency_range v).1, (map_frequency_range v).2,
    (map_frequency_range v).1, (map_frequency_range v).2⟩

/-- Witness for C1 at the out-of-nominal-range input 5000: the mapped
frequency is clamped to 2000. -/
theorem map_frequency_always_in_range_witness :
    5000 < 2 ^ 16 ∧ (200 ≤ map_frequency 5000 ∧ map_frequency 5000 ≤ 2000 ∧
      200 ≤ Temperature_To_Frequency 5000 ∧ Temperature_To_Frequency 5000 ≤ 2000) ∧
    map_frequency 5000 = 2000 :=
  ⟨by norm_num, map_frequency_always_in_range 5000 (by norm_num), by decide⟩

/-- C2: the frequency mapping computes `200 + (sample * 1800) / 4095`
with integer arithmetic over the nominal range, so `mapFrequency 0 = 200`,
`mapFrequency 4095 = 2000`, and `mapFrequency 2048` is within 1 Hz of 1100
(it is exactly 1100). -/
theorem map_frequency_formula_and_anchors (v : ℕ) (hv : v ≤ 4095) :
    map_frequency v = 200 + v * 1800 / 4095 ∧
    Temperature_To_Frequency v = 200 + v * 1800 / 4095 ∧
    map_frequency 0 = 200 ∧ map_frequency 4095 = 2000 ∧
    1099 ≤ map_frequency 2048 ∧ map_frequency 2048 ≤ 1101 := by
  rw [Temperature_To_Frequency_eq]
  refine ⟨map_frequency_nominal v hv, map_frequency_nominal v hv, by decide, by decide,
    by decide, by decide⟩

/-- Witness for C2 at the midpoint input 2048 (mapped to exactly 1100). -/
theorem map_frequency_formula_and_anchors_witness :
    (2048 : ℕ) ≤ 4095 ∧ map_frequency 2048 = 200 + 2048 * 1800 / 4095 ∧
    map_frequency 2048 = 1100 :=
  ⟨by norm_num, (map_frequency_formula_and_anchors 2048 (by norm_num)).1, by decide⟩

/-- C6: the frequency mapping is monotonically non-decreasing over the
nominal sample range `[0, 4095]`, in both firmware variants. -/
theorem map_frequency_monotone (s1 s2 : ℕ) (h12 : s1 ≤ s2) (h2 : s2 ≤ 4095) :
    map_frequency s1 ≤ map_frequency s2 ∧
    Temperature_To_Frequency s1 ≤ Temperature_To_Frequency s2 := by
  rw [Temperature_To_Frequency_eq, Temperature_To_Frequency_eq]
  have h1 : s1 ≤ 4095 := le_trans h12 h2
  rw [map_frequency_nominal s1 h1, map_frequency_nominal s2 h2]
  have : s1 * 1800 / 4095 ≤ s2 * 1800 / 4095 :=
    Nat.div_le_div_right (Nat.mul_le_mul_right _ h12)
  constructor <;> omega

/-- Witness for C6 at the pair (100, 200). -/
theorem map_frequency_monotone_witness :
    (100 : ℕ) ≤ 200 ∧ (200 : ℕ) ≤ 4095 ∧
    map_frequency 100 ≤ map_frequency 200 ∧
    Temperature_To_Frequency 100 ≤ Temperature_To_Frequency 200 :=
  ⟨by norm_num, by norm_num, (map_frequency_monotone 100 200 (by norm_num) (by norm_num)).1,
    (map_frequency_monotone 100 200 (by norm_num) (by norm_num)).2⟩

/-! ## Retune decision (`main.ino` lines 73-74) -/

/-- Constant `UPDATE_INTERVAL = 100` (`main.ino` line 30). -/
def UPDATE_INTERVAL : ℕ := 100

/-- The retune condition of the `main.ino` loop:
`abs((int32_t)new_frequency - (int32_t)current_frequency) > 5 ||
 (millis() - last_update) > UPDATE_INTERVAL`,
with the elapsed milliseconds `millis() - last_update` taken as a
parameter. -/
def shouldRetune (previous candidate elapsed : ℕ) : Bool :=
  decide (5 < ((candidate : ℤ) - (previous : ℤ)).natAbs) ||
  decide (UPDATE_INTERVAL < elapsed)

/-- C3 counterexample: at `previous = candidate = 1000` and
`elapsed = 100` ms the code does **not** retune, although the elapsed time
is "at least 100 ms": the source compares with strict `>`, so the claimed
if-and-only-if characterisation (`|Δf| > 5` OR `elapsed ≥ 100 ms`) fails at
exactly 100 ms. -/
theorem shouldRetune_claim_fails_at_100 :
    ¬ (shouldRetune 1000 1000 100 = true ↔
        (5 < ((1000 : ℤ) - (1000 : ℤ)).natAbs ∨ 100 ≤ (100 : ℕ))) := by
  decide

/-- C3 amended: the retune decision returns `true` if and only if
`|candidate - previous| > 5` Hz OR the elapsed time since the last update is
**strictly greater than** 100 ms; the three example evaluations of the claim
all hold. -/
theorem shouldRetune_spec (previous candidate elapsed : ℕ) :
    (shouldRetune previous candidate elapsed = true ↔
      (5 < ((candidate : ℤ) - (previous : ℤ)).natAbs ∨ 100 < elapsed)) ∧
    shouldRetune 1000 1004 50 = false ∧
    shouldRetune 1000 1006 50 = true ∧
    shouldRetune 1000 1000 150 = true := by
  refine ⟨?_, by decide, by decide, by decide⟩
  simp [shouldRetune, UPDATE_INTERVAL]

/-! ## Tone generator (`main.ino` lines 125-163)

The C `double` state `phase` is modelled by a real number.  The wrap loop
`while (phase >= 2.0 * PI) phase -= 2.0 * PI;` is modelled by its
denotation `wrapPhase`, which provably satisfies the two loop equations
(`wrapPhase_of_lt_two_pi` and `wrapPhase_sub_two_pi`), so on the
nonnegative phases that actually occur it computes exactly what the loop
computes. -/

/-- Denotation of the wrap loop `while (phase >= 2.0 * PI) phase -= 2.0 * PI`. -/
noncomputable def wrapPhase (x : ℝ) : ℝ := x - 2 * Real.pi * ⌊x / (2 * Real.pi)⌋

/-- Rewriting `wrapPhase` through the fractional-part function. -/
lemma wrapPhase_eq_fract (x : ℝ) :
    wrapPhase x = 2 * Real.pi * Int.fract (x / (2 * Real.pi)) := by
  have h : (2 * Real.pi) ≠ 0 := by positivity
  unfold wrapPhase Int.fract
  field_simp

/-- The wrapped phase is nonnegative. -/
lemma wrapPhase_nonneg (x : ℝ) : 0 ≤ wrapPhase x := by
  rw [wrapPhase_eq_fract]
  exact mul_nonneg (by positivity) (Int.fract_nonneg _)

/-- The wrapped phase is below one period. -/
lemma wrapPhase_lt_two_pi (x : ℝ) : wrapPhase x < 2 * Real.pi := by
  rw [wrapPhase_eq_fract]
  have h2 : (0 : ℝ) < 2 * Real.pi := by positivity
  calc 2 * Real.pi * Int.fract (x / (2 * Real.pi))
      < 2 * Real.pi * 1 := by
        exact mul_lt_mul_of_pos_left (Int.fract_lt_one _) h2
    _ = 2 * Real.pi := mul_one _

/-- First loop equation: when the guard fails on a nonnegative phase, the
loop returns the phase unchanged. -/
lemma wrapPhase_of_lt_two_pi {x : ℝ} (h0 : 0 ≤ x) (h1 : x < 2 * Real.pi) :
    wrapPhase x = x := by
  have h2 : (0 : ℝ) < 2 * Real.pi := by positivity
  have hfl : ⌊x / (2 * Real.pi)⌋ = 0 := by
    apply Int.floor_eq_zero_iff.mpr
    exact ⟨by positivity, by rw [div_lt_one h2]; exact h1⟩
  unfold wrapPhase
  rw [hfl]
  simp

/-- Second loop equation: one iteration of the wrap loop preserves the
denotation (stated as the unconditional identity it is). -/
lemma wrapPhase_sub_two_pi (x : ℝ) : wrapPhase x = wrapPhase (x - 2 * Real.pi) := by
  have h : (2 * Real.pi) ≠ 0 := by positivity
  unfold wrapPhase
  have hdiv : (x - 2 * Real.pi) / (2 * Real.pi) = x / (2 * Real.pi) - 1 := by
    rw [sub_div, div_self h]
  rw [hdiv, Int.floor_sub_one]
  push_cast
  ring

/-- Truncation of a C `double` toward zero when cast to an integer type. -/
noncomputable def truncToInt (x : ℝ) : ℤ := if 0 ≤ x then ⌊x⌋ else ⌈x⌉

/-- Truncation stays within any integer interval around zero containing the
real value. -/
lemma truncToInt_bounds {x : ℝ} {m M : ℤ} (hm : m ≤ 0) (hM : 0 ≤ M)
    (h1 : (m : ℝ) ≤ x) (h2 : x ≤ (M : ℝ)) :
    m ≤ truncToInt x ∧ truncToInt x ≤ M := by
  unfold truncToInt
  split_ifs with h
  · refine ⟨le_trans hm (Int.floor_nonneg.mpr h), ?_⟩
    have := Int.floor_mono h2
    rwa [Int.floor_intCast] at this
  · push_neg at h
    constructor
    · have := Int.ceil_mono h1
      rwa [Int.ceil_intCast] at this
    · exact le_trans (Int.ceil_le.mpr (by exact_mod_cast h.le)) hM

/-- Output sample computation of `generate_tone` (`main.ino` lines 150-154):
`int16_t sine_value = 2048 + (int16_t)(2047 * sin(phase));` followed by the
clamps to `[0, 4095]`. -/
noncomputable def sine_value_of (phase : ℝ) : ℤ :=
  let raw : ℤ := 2048 + truncToInt (2047 * Real.sin phase)
  let r1 := if raw < 0 then 0 else raw
  if r1 > 4095 then 4095 else r1

/-- Value written by `analogWrite` (`main.ino` line 159): the clamped 12-bit
sample scaled to 8 bits by `sine_value >> 4` (division by 16 on the
nonnegative clamped value). -/
noncomputable def pin_value_of (phase : ℝ) : ℤ := sine_value_of phase / 16

/-- The truncated scaled sine is within `[-2047, 2047]`. -/
lemma trunc_sine_bounds (phase : ℝ) :
    -(2047 : ℤ) ≤ truncToInt (2047 * Real.sin phase) ∧
    truncToInt (2047 * Real.sin phase) ≤ 2047 := by
  have h1 : ((-2047 : ℤ) : ℝ) ≤ 2047 * Real.sin phase := by
    have := Real.neg_one_le_sin phase
    push_cast
    nlinarith
  have h2 : 2047 * Real.sin phase ≤ ((2047 : ℤ) : ℝ) := by
    have := Real.sin_le_one phase
    push_cast
    nlinarith
  exact truncToInt_bounds (by norm_num) (by norm_num) h1 h2

/-- The clamps of `sine_value` never fire (real-arithmetic model): the raw
value is already in `[1, 4095]`. -/
lemma sine_value_of_eq_raw (phase : ℝ) :
    sine_value_of phase = 2048 + truncToInt (2047 * Real.sin phase) ∧
    1 ≤ sine_value_of phase ∧ sine_value_of phase ≤ 4095 := by
  obtain ⟨hl, hu⟩ := trunc_sine_bounds phase
  simp only [sine_value_of]
  split_ifs <;> omega

/-- The 8-bit scaled output is within `[0, 255]`. -/
lemma pin_value_of_bounds (phase : ℝ) :
    0 ≤ pin_value_of phase ∧ pin_value_of phase ≤ 255 := by
  obtain ⟨-, h1, h2⟩ := sine_value_of_eq_raw phase
  unfold pin_value_of
  constructor
  · exact Int.ediv_nonneg (by omega) (by norm_num)
  · have hmono : sine_value_of phase / 16 ≤ 4095 / 16 :=
      Int.ediv_le_ediv (by norm_num) h2
    have h255 : (4095 : ℤ) / 16 = 255 := by decide
    omega

/-- At phase 0 the emitted 8-bit sample is the midpoint `2048 >> 4 = 128`. -/
lemma pin_value_of_zero : pin_value_of 0 = 128 := by
  have ht : truncToInt (2047 * Real.sin 0) = 0 := by
    rw [Real.sin_zero, mul_zero]
    unfold truncToInt
    simp
  unfold pin_value_of
  rw [(sine_value_of_eq_raw 0).1, ht]
  decide

/-- The `uint32_t` subtraction `current_time - last_time` of `main.ino`
line 130 (modular arithmetic on 32-bit microsecond timestamps). -/
def elapsed32 (current last : ℕ) : ℕ :=
  (2 ^ 32 + current % 2 ^ 32 - last % 2 ^ 32) % 2 ^ 32

/-- Two reads of the same timestamp give elapsed time zero. -/
lemma elapsed32_self (t : ℕ) : elapsed32 t t = 0 := by
  unfold elapsed32
  omega

/-- State of the tone generator: the static locals `phase` and `last_time`
of `generate_tone`, together with the PWM latch of the output pin (the last
value passed to `analogWrite`, `none` before the first write). -/
structure ToneState where
  phase : ℝ
  last_time : ℕ
  pin : Option ℤ

/-- Startup state: `static double phase = 0.0; static uint32_t last_time = 0;`
and no sample written yet. -/
noncomputable def initState : ToneState := ⟨0, 0, none⟩

/-- Phase update of `generate_tone` (`main.ino` lines 135-144): advance by
`2 * PI * current_frequency * (elapsed / 1000000.0)` and wrap. -/
noncomputable def phase_after (frequency elapsed : ℕ) (phase : ℝ) : ℝ :=
  wrapPhase (phase + 2 * Real.pi * frequency * ((elapsed : ℝ) / 1000000))

/-- One call of `generate_tone` (`main.ino` lines 125-163), parameterised by
the global `current_frequency` and the value returned by `micros()`:
if `elapsed > 0 && current_frequency > 0` the phase advances, wraps, and the
scaled sample of the new phase is written to the pin; else if `elapsed == 0`
only `last_time` is refreshed; otherwise nothing happens. -/
noncomputable def generate_tone (current_frequency current_time : ℕ)
    (s : ToneState) : ToneState :=
  if 0 < elapsed32 current_time s.last_time ∧ 0 < current_frequency then
    { phase := phase_after current_frequency (elapsed32 current_time s.last_time) s.phase,
      last_time := current_time,
      pin := some (pin_value_of
        (phase_after current_frequency (elapsed32 current_time s.last_time) s.phase)) }
  else if elapsed32 current_time s.last_time = 0 then
    { phase := s.phase, last_time := current_time, pin := s.pin }
  else
    s

/-- Branch lemma: active branch (`elapsed > 0 && current_frequency > 0`). -/
lemma generate_tone_active {f t : ℕ} {s : ToneState}
    (h1 : 0 < elapsed32 t s.last_time) (h2 : 0 < f) :
    generate_tone f t s =
      { phase := phase_after f (elapsed32 t s.last_time) s.phase,
        last_time := t,
        pin := some (pin_value_of (phase_after f (elapsed32 t s.last_time) s.phase)) } := by
  unfold generate_tone
  rw [if_pos ⟨h1, h2⟩]

/-- Branch lemma: `elapsed == 0` branch. -/
lemma generate_tone_same_time {f t : ℕ} {s : ToneState}
    (h : elapsed32 t s.last_time = 0) :
    generate_tone f t s = { phase := s.phase, last_time := t, pin := s.pin } := by
  unfold generate_tone
  rw [if_neg (by omega), if_pos h]

/-- Branch lemma: `elapsed > 0` with `current_frequency == 0` takes neither
branch and leaves the whole state untouched. -/
lemma generate_tone_stalled {f t : ℕ} {s : ToneState}
    (h1 : 0 < elapsed32 t s.last_time) (h2 : f = 0) :
    generate_tone f t s = s := by
  unfold generate_tone
  rw [if_neg (by omega), if_neg (by omega)]

/-- After any call, either `last_time` was refreshed to the call's timestamp
or the state is completely unchanged. -/
lemma generate_tone_last_time (f t : ℕ) (s : ToneState) :
    (generate_tone f t s).last_time = t ∨ generate_tone f t s = s := by
  unfold generate_tone
  split_ifs <;> simp

/-- A run of the sampling loop: fold `generate_tone` over a list of
`(current_frequency, micros())` observations. -/
noncomputable def tone_run (inputs : List (ℕ × ℕ)) (s : ToneState) : ToneState :=
  inputs.foldl (fun st p => generate_tone p.1 p.2 st) s

/-- One call preserves the phase-range invariant. -/
lemma generate_tone_phase_bounds (f t : ℕ) (s : ToneState)
    (h : 0 ≤ s.phase ∧ s.phase < 2 * Real.pi) :
    0 ≤ (generate_tone f t s).phase ∧ (generate_tone f t s).phase < 2 * Real.pi := by
  unfold generate_tone
  split_ifs
  · exact ⟨wrapPhase_nonneg _, wrapPhase_lt_two_pi _⟩
  · exact h
  · exact h

/-- Any run preserves the phase-range invariant. -/
lemma tone_run_phase_bounds (inputs : List (ℕ × ℕ)) (s : ToneState)
    (h : 0 ≤ s.phase ∧ s.phase < 2 * Real.pi) :
    0 ≤ (tone_run inputs s).phase ∧ (tone_run inputs s).phase < 2 * Real.pi := by
  induction inputs generalizing s with
  | nil => simpa [tone_run] using h
  | cons p rest ih =>
      simpa [tone_run] using ih _ (generate_tone_phase_bounds p.1 p.2 s h)

/-- C4: for every sequence of `generate_tone` calls starting from the
initial state with phase 0, and for arbitrarily large elapsed times and
frequencies, the oscillator phase is in `[0, 2π)` after each call: the wrap
handles any overshoot and the phase never grows without bound. -/
theorem tone_phase_always_wrapped (inputs : List (ℕ × ℕ)) :
    0 ≤ (tone_run inputs initState).phase ∧
    (tone_run inputs initState).phase < 2 * Real.pi :=
  tone_run_phase_bounds inputs initState
    ⟨le_refl 0, by positivity⟩

/-- C5: for every phase value, the tone generator computes
`raw = 2048 + 2047 * sin(phase)` over the 12-bit logical range (the clamp to
`[0, 4095]` is in place but the raw value never escapes it), so the 12-bit
sample is always within `[0, 4095]` and the emitted 8-bit value within
`[0, 255]`. -/
theorem sine_sample_clamped (phase : ℝ) :
    sine_value_of phase = 2048 + truncToInt (2047 * Real.sin phase) ∧
    0 ≤ sine_value_of phase ∧ sine_value_of phase ≤ 4095 ∧
    0 ≤ pin_value_of phase ∧ pin_value_of phase ≤ 255 := by
  obtain ⟨heq, h1, h2⟩ := sine_value_of_eq_raw phase
  obtain ⟨h3, h4⟩ := pin_value_of_bounds phase
  exact ⟨heq, by omega, h2, h3, h4⟩

/-- C7: a call with elapsed time zero is a no-op on the phase, and two
consecutive calls at the same timestamp leave the phase identical between
the calls, for every frequency and every starting state. -/
theorem zero_elapsed_preserves_phase (f t : ℕ) (s : ToneState) :
    (elapsed32 t s.last_time = 0 → (generate_tone f t s).phase = s.phase) ∧
    (generate_tone f t (generate_tone f t s)).phase = (generate_tone f t s).phase := by
  constructor
  · intro h
    rw [generate_tone_same_time h]
  · rcases generate_tone_last_time f t s with h | h
    · rw [generate_tone_same_time
        (show elapsed32 t (generate_tone f t s).last_time = 0 by
          rw [h]; exact elapsed32_self t)]
    · rw [h, h]

/-- Witness for C7: a second call at the very same startup timestamp leaves
the phase at 0. -/
theorem zero_elapsed_preserves_phase_witness :
    (generate_tone 440 0 initState).phase = initState.phase :=
  (zero_elapsed_preserves_phase 440 0 initState).1 (elapsed32_self 0)

/-- C8: with target frequency 0 the phase does not advance and the pin latch
is untouched, so the emitted signal stabilizes at whatever sample the
current phase maps to (not necessarily the center value, and not silence). -/
theorem zero_frequency_holds_output (t : ℕ) (s : ToneState) :
    (generate_tone 0 t s).phase = s.phase ∧
    (generate_tone 0 t s).pin = s.pin ∧
    (s.pin = some (pin_value_of s.phase) →
      (generate_tone 0 t s).pin = some (pin_value_of ((generate_tone 0 t s).phase))) := by
  by_cases he : elapsed32 t s.last_time = 0
  · rw [generate_tone_same_time he]
    exact ⟨rfl, rfl, fun h => h⟩
  · rw [generate_tone_stalled (Nat.pos_of_ne_zero he) rfl]
    exact ⟨rfl, rfl, fun h => h⟩

/-- Witness for C8: from a state whose pin already holds the sample of its
phase (phase 0, pin 128), a zero-frequency call still shows the sample of
the (unchanged) phase. -/
theorem zero_frequency_holds_output_witness :
    (generate_tone 0 3 ⟨0, 0, some 128⟩).pin =
      some (pin_value_of ((generate_tone 0 3 (⟨0, 0, some 128⟩ : ToneState)).phase)) :=
  (zero_frequency_holds_output 3 ⟨0, 0, some 128⟩).2.2
    (by rw [pin_value_of_zero])

/-- C10: a call with frequency 0 and positive elapsed time changes nothing
at all (phase, timestamp, pin latch): no sample is emitted and elapsed time
keeps accumulating, so the first later call with a nonzero frequency
advances the phase by the full wall-clock time since the last state update,
not just its own step. -/
theorem stalled_time_accumulates (t : ℕ) (s : ToneState)
    (h : 0 < elapsed32 t s.last_time) :
    generate_tone 0 t s = s ∧
    ∀ f t2, 0 < f → 0 < elapsed32 t2 s.last_time →
      (generate_tone f t2 (generate_tone 0 t s)).phase =
        wrapPhase (s.phase +
          2 * Real.pi * f * ((elapsed32 t2 s.last_time : ℝ) / 1000000)) := by
  have hs : generate_tone 0 t s = s := generate_tone_stalled h rfl
  refine ⟨hs, fun f t2 hf he2 => ?_⟩
  rw [hs, generate_tone_active he2 hf]
  rfl

/-- Witness for C10: a stalled call at t = 10 µs changes nothing, and the
following 440 Hz call at t = 20 µs advances the phase by the full 20 µs. -/
theorem stalled_time_accumulates_witness :
    0 < elapsed32 10 0 ∧
    generate_tone 0 10 initState = initState ∧
    (generate_tone 440 20 (generate_tone 0 10 initState)).phase =
      wrapPhase (0 + 2 * Real.pi * 440 * ((20 : ℝ) / 1000000)) := by
  have h10 : 0 < elapsed32 10 0 := by decide
  have h20 : 0 < elapsed32 20 0 := by decide
  obtain ⟨h1, h2⟩ := stalled_time_accumulates 10 initState h10
  refine ⟨h10, h1, ?_⟩
  rw [h2 440 20 (by norm_num) h20]
  norm_num [initState, elapsed32]

/-! ## Register-level main loop (`main.c` lines 39-70, 203-230) -/

/-- Timer clock of `TIM2_Init` (`main.c` line 213): 84 MHz. -/
def timer_clock : ℕ := 84000000

/-- The auto-reload value computed inside `TIM2_Init` (`main.c` line 214):
`period = (timer_clock / frequency) - 1`.  The C division is defined only
for a nonzero `frequency`; the safety theorem below shows every reachable
argument is at least 200. -/
def TIM2_period (frequency : ℕ) : ℕ := timer_clock / frequency - 1

/-- One iteration of the `main.c` loop body acting on the accumulator
`(current_frequency, frequencies passed to TIM2_Init so far)`: compute
`Temperature_To_Frequency(adc_value)` and, when
`abs((int32_t)new_frequency - (int32_t)current_frequency) > 5`, update the
global and call `TIM2_Init(current_frequency)`. -/
def main_step (acc : ℕ × List ℕ) (adc_value : ℕ) : ℕ × List ℕ :=
  let new_frequency := Temperature_To_Frequency adc_value
  if 5 < ((new_frequency : ℤ) - (acc.1 : ℤ)).natAbs then
    (new_frequency, acc.2 ++ [new_frequency])
  else
    (acc.1, acc.2)

/-- The `main.c` run over a sequence of ADC readings: `current_frequency`
starts at 440, `TIM2_Init(440)` is called once before the loop, and the
loop folds `main_step`.  The second component collects every frequency ever
passed to `TIM2_Init`. -/
def tim2_frequencies (adc_values : List ℕ) : ℕ × List ℕ :=
  adc_values.foldl main_step (440, [440])

/-- Case analysis on one loop iteration: the recorded list either stays as
it is or grows by exactly the new `Temperature_To_Frequency` result. -/
lemma main_step_cases (acc : ℕ × List ℕ) (adc_value : ℕ) :
    (main_step acc adc_value).2 = acc.2 ∨
    (main_step acc adc_value).2 = acc.2 ++ [Temperature_To_Frequency adc_value] := by
  simp only [main_step]
  split_ifs <;> simp

/-- Invariant of the fold: every recorded frequency is in `[200, 2000]` and
is either the initial 440 or a `Temperature_To_Frequency` result. -/
lemma main_step_fold_invariant (adc_values : List ℕ) (acc : ℕ × List ℕ)
    (hacc : ∀ f ∈ acc.2, 200 ≤ f ∧ f ≤ 2000 ∧
      (f = 440 ∨ ∃ a, f = Temperature_To_Frequency a)) :
    ∀ f ∈ (adc_values.foldl main_step acc).2, 200 ≤ f ∧ f ≤ 2000 ∧
      (f = 440 ∨ ∃ a, f = Temperature_To_Frequency a) := by
  induction adc_values generalizing acc with
  | nil => simpa using hacc
  | cons adc rest ih =>
      simp only [List.foldl_cons]
      apply ih
      intro f hf
      rcases main_step_cases acc adc with h | h
      · rw [h] at hf
        exact hacc f hf
      · rw [h] at hf
        rcases List.mem_append.mp hf with hf | hf
        · exact hacc f hf
        · have hfe : f = Temperature_To_Frequency adc := by simpa using hf
          subst hfe
          rw [Temperature_To_Frequency_eq]
          exact ⟨(map_frequency_range adc).1, (map_frequency_range adc).2,
            Or.inr ⟨adc, Temperature_To_Frequency_eq adc⟩⟩

/-- C9: in the register-level variant, every frequency ever passed to
`TIM2_Init` is either the initial 440 or a `Temperature_To_Frequency`
result, hence at least 200; in particular it is nonzero, so the division
`timer_clock / frequency` inside `TIM2_Init` never divides by zero in any
reachable state of the main loop (its quotient is positive). -/
theorem tim2_divisor_never_zero (adc_values : List ℕ) (f : ℕ)
    (hf : f ∈ (tim2_frequencies adc_values).2) :
    200 ≤ f ∧ f ≠ 0 ∧ 0 < timer_clock / f ∧
    (f = 440 ∨ ∃ a, f = Temperature_To_Frequency a) := by
  have hbase : ∀ g ∈ [440], (200 : ℕ) ≤ g ∧ g ≤ 2000 ∧
      (g = 440 ∨ ∃ a, g = Temperature_To_Frequency a) := by
    intro g hg
    have : g = 440 := by simpa using hg
    subst this
    exact ⟨by norm_num, by norm_num, Or.inl rfl⟩
  obtain ⟨h200, h2000, horigin⟩ :=
    main_step_fold_invariant adc_values (440, [440]) hbase f hf
  refine ⟨h200, by omega, ?_, horigin⟩
  apply Nat.div_pos _ (by omega)
  unfold timer_clock
  omega

/-- Witness for C9: the initial `TIM2_Init(440)` call of a run with no ADC
readings. -/
theorem tim2_divisor_never_zero_witness :
    440 ∈ (tim2_frequencies []).2 ∧
    (200 ≤ 440 ∧ (440 : ℕ) ≠ 0 ∧ 0 < timer_clock / 440 ∧
      ((440 : ℕ) = 440 ∨ ∃ a, 440 = Temperature_To_Frequency a)) :=
  ⟨by decide, tim2_divisor_never_zero [] 440 (by decide)⟩

end TempToSound
